import Mathlib

/-!
Verification development for the `rocket_static_fs` static file server.

The definitions below are a shallow embedding of the Rust sources:

* `src/fs/embedded/mod.rs` — the binary package codec (`write_package`,
  `Package::from_bytes`, `Package::open`) and the archive-backed
  `EmbeddedFileSystem`;
* `src/fs/mod.rs` — the `FileSystem` trait and the directory-backed
  `LocalFileSystem`;
* `src/io/mod.rs` — the bounding `LimitReader`;
* `src/lib.rs` — the `Range` header parser and the request pipeline
  `StaticFileServer::on_response`.

Machine integers are modelled as `Nat`/`Int` with explicit `% 2^64` at the
points where the Rust `u64` arithmetic can wrap.  Byte buffers and streams
are `List Nat` (each element a byte value), paths handed to the package
codec are their UTF-8 byte lists, and fallible operations return `Option`
(`none` standing for `Err` or for a Rust panic, as noted at each
definition).  External collaborator crates (chrono date formatting and
parsing, the mime table, the gzip codec, the regex engine) are modelled at
their boundary, as documented on the corresponding definitions.
-/

namespace RocketStaticFs

/-! ## Big-endian 64-bit integers (byteorder crate boundary)

The byteorder crate's `write_u64::<BigEndian>` / `read_u64::<BigEndian>`
and the signed variants, on byte lists. -/

/-- The eight big-endian bytes of `n % 2^64`, as written by
`write_u64::<BigEndian>` (a `usize`/`u64` argument is already reduced
mod `2^64` by the cast in the source). -/
def u64be (n : Nat) : List Nat :=
  [n / 2 ^ 56 % 256, n / 2 ^ 48 % 256, n / 2 ^ 40 % 256, n / 2 ^ 32 % 256,
   n / 2 ^ 24 % 256, n / 2 ^ 16 % 256, n / 2 ^ 8 % 256, n % 256]

/-- Big-endian value of a byte list (bytes are assumed `< 256`). -/
def beVal (bs : List Nat) : Nat :=
  bs.foldl (fun a b => a * 256 + b) 0

/-- Reinterpret a `u64` value as an `i64` (two's complement). -/
def i64ofU64 (n : Nat) : Int :=
  if n < 2 ^ 63 then (n : Int) else (n : Int) - 2 ^ 64

/-- The eight big-endian bytes of an `i64` written with
`write_i64::<BigEndian>` (two's complement). -/
def i64be (z : Int) : List Nat :=
  u64be (z % 2 ^ 64).toNat

/-- Cursor read of a big-endian `u64` at absolute position `pos`;
`none` models the io error returned when fewer than 8 bytes remain. -/
def readU64 (bytes : List Nat) (pos : Nat) : Option Nat :=
  if pos + 8 ≤ bytes.length then some (beVal ((bytes.drop pos).take 8)) else none

/-- Cursor read of a big-endian `i64` at absolute position `pos`. -/
def readI64 (bytes : List Nat) (pos : Nat) : Option Int :=
  (readU64 bytes pos).map i64ofU64

/-! ## Package codec (`src/fs/embedded/mod.rs`) -/

/-- One decoded index entry (`InternalFile` in the source): modification
time in epoch seconds (the decoder builds `Utc.timestamp(secs, 0)`, so
only the seconds survive), content length and start offset into the data
region. -/
structure InternalFile where
  last_modified : Int
  len : Nat
  start : Nat
deriving DecidableEq, Repr

/-- A decoded package: the path index (a `HashMap<String, InternalFile>`
in the source, modelled as a key-unique association list over UTF-8 path
byte lists) plus the data region. -/
structure Package where
  files : List (List Nat × InternalFile)
  data : List Nat
deriving DecidableEq, Repr

/-- HashMap `insert`: replaces any existing binding of the same key. -/
def insertEntry (m : List (List Nat × InternalFile)) (p : List Nat)
    (v : InternalFile) : List (List Nat × InternalFile) :=
  (p, v) :: m.filter (fun x => x.1 ≠ p)

/-- The record-reading loop of `Package::from_bytes`.

Faithful transcription of the `while read < meta_len` loop: each
iteration reads the path length, takes `path_len` bytes for the path
(`read_to_string` on a `take` reads at most the remaining bytes, so a
truncated buffer yields a truncated path rather than an error there),
seeks the cursor forward by `path_len`, reads the modification time,
length and start fields, and accounts `cursor_end - cursor_start
= 32 + path_len` bytes into `read`.  `none` models the propagated io
error when a fixed 8-byte read runs past the end of the buffer.

The loop is driven by structural recursion on a fuel argument; the
caller passes `meta_len + 1`, which is sufficient because every
iteration adds at least 32 to `read` (see `readLoop_fuel_enough` style
bounds used in the proofs).  Cursor positions are `Nat`; the `path_len
as i64` seek cast is exact below `2^63`, which all inputs considered
here satisfy. -/
def readLoop (bytes : List Nat) (meta_len : Nat) :
    Nat → Nat → Nat → List (List Nat × InternalFile) →
    Option (List (List Nat × InternalFile))
  | 0, _, _, _ => none
  | fuel + 1, pos, read, files =>
    if read < meta_len then
      match readU64 bytes pos with
      | none => none
      | some path_len =>
        let path := (bytes.drop (pos + 8)).take path_len
        let pos1 := pos + 8 + path_len
        match readI64 bytes pos1, readU64 bytes (pos1 + 8),
              readU64 bytes (pos1 + 16) with
        | some lm, some len, some start =>
          readLoop bytes meta_len fuel (pos1 + 24) (read + (32 + path_len))
            (insertEntry files path ⟨lm, len, start⟩)
        | _, _, _ => none
    else
      some files

/-- Decoder `Package::from_bytes`: read the 8-byte header `meta_len`, run
the record loop from position 8, then slice the data region at
`meta_len + 8`.  The final `if` models the slice-out-of-range panic,
which is in fact unreachable (every successful loop exit has consumed at
least `meta_len` in-bounds bytes after the header). -/
def Package.from_bytes (bytes : List Nat) : Option Package :=
  match readU64 bytes 0 with
  | none => none
  | some meta_len =>
    match readLoop bytes meta_len (meta_len + 1) 8 0 [] with
    | none => none
    | some files =>
      if meta_len + 8 ≤ bytes.length then
        some ⟨files, bytes.drop (meta_len + 8)⟩
      else
        none

/-- Lookup a path (`Package::open` uses the `HashMap` lookup on the
string key). -/
def Package.lookupFile (pkg : Package) (p : List Nat) : Option InternalFile :=
  pkg.files.lookup p

/-- Decoder-side `Package::open`: slice
`data[start .. start + len]` and return a cursor over it; the sum
`file.start + file.len` is `u64` arithmetic, hence the `% 2^64`; the
guard models the slice panic on an out-of-range or inverted range. -/
def Package.open_ (pkg : Package) (p : List Nat) : Option (List Nat) :=
  match pkg.files.lookup p with
  | some file =>
    let start := file.start
    let stop := (file.start + file.len) % 2 ^ 64
    if start ≤ stop ∧ stop ≤ pkg.data.length then
      some ((pkg.data.drop start).take (stop - start))
    else
      none
  | none => none

/-- One input file for the encoder: the `input_files` path entry
(UTF-8 bytes of the relative path string) together with what
`root.join(f).metadata()` and the final `io::copy` read from disk — its
modification time in epoch seconds (`DateTime::from(mtime).timestamp()`)
and its content bytes (`metadata().len()` is the content length). -/
structure SrcFile where
  path : List Nat
  mtime : Int
  content : List Nat
deriving DecidableEq, Repr

/-- Byte-wise lexicographic order on paths — the order of Rust's
`Ord for String`, used by `files.sort()`. -/
def byteLe : List Nat → List Nat → Bool
  | [], _ => true
  | _ :: _, [] => false
  | a :: as, b :: bs =>
    if a < b then true else if b < a then false else byteLe as bs

/-- Sorting comparison on whole files, by path. -/
def fileLe (a b : SrcFile) : Bool := byteLe a.path b.path

/-- Metadata length of a file list: the sum over all entries of
`32 + path byte length` (8 bytes each for path length, modification
time, content length and start offset, plus the raw path bytes). -/
def metaLenOf (files : List SrcFile) : Nat :=
  (files.map (fun f => 32 + f.path.length)).sum

/-- Total data-region length of a file list. -/
def dataLenOf (files : List SrcFile) : Nat :=
  (files.map (fun f => f.content.length)).sum

/-- One metadata record as written by the encoder loop: path length,
path bytes, modification time, content length, running start offset. -/
def metaRecord (f : SrcFile) (off : Nat) : List Nat :=
  u64be f.path.length ++ f.path ++ i64be f.mtime ++
    u64be f.content.length ++ u64be off

/-- The metadata region for a file list, with `off` the running sum of
prior content lengths (`data_offset` in the source). -/
def metaBytes : List SrcFile → Nat → List Nat
  | [], _ => []
  | f :: fs, off => metaRecord f off ++ metaBytes fs (off + f.content.length)

/-- The data region: the files' raw bytes concatenated in list order. -/
def dataBytes (files : List SrcFile) : List Nat :=
  (files.map (fun f => f.content)).flatten

/-- Encoder `write_package`: sort the input files by path, write the
8-byte `meta_len` header, the metadata records with running offsets,
then the concatenated file contents in the same order. -/
def write_package (files : List SrcFile) : List Nat :=
  let sorted := files.mergeSort fileLe
  u64be (metaLenOf sorted) ++ metaBytes sorted 0 ++ dataBytes sorted

/-! ## LimitReader (`src/io/mod.rs`) -/

/-- State of a `LimitReader<T>`: bytes delivered so far, the configured
limit, and the wrapped stream's remaining content (the `T: Read` is
modelled by the byte list a reader would still deliver). -/
structure LimitReader where
  read : Nat
  limit : Nat
  inner : List Nat
deriving DecidableEq, Repr

/-- `LimitReader::new(inner, limit)`. -/
def LimitReader.new (inner : List Nat) (limit : Nat) : LimitReader :=
  ⟨0, limit, inner⟩

/-- One `read` call with a caller buffer of length `bufLen`: if the limit
has been reached, report end of stream (`Ok(0)`) without touching the
wrapped stream; otherwise read at most `min (limit - read) bufLen`
bytes from the wrapped stream (which delivers what it has left, up to
the capacity) and account them.  Returns the delivered bytes and the
updated reader. -/
def LimitReader.readStep (r : LimitReader) (bufLen : Nat) :
    List Nat × LimitReader :=
  if r.limit = r.read then
    ([], r)
  else
    let left := r.limit - r.read
    let capacity := if left < bufLen then left else bufLen
    let got := r.inner.take capacity
    (got, { r with read := r.read + got.length, inner := r.inner.drop got.length })

/-! ## Range header parser (`src/lib.rs`, `Range` and its `FromStr`)

The source matches the header against the regex
`(.*?)=(\d+)-(\d+)` (unanchored, lazy first group) and parses the two
digit captures with `str::parse::<u64>`.  The regex engine (an external
crate) is modelled by its match semantics for this fixed pattern: the
leftmost match takes the shortest prefix ending at a `=` that is
immediately followed by a maximal nonempty digit run, a `-`, and a
nonempty digit run.  Digits are modelled as ASCII digits (the regex
class `\d` also admits other Unicode digits, but `parse::<u64>` rejects
those captures, so no accepted header is mismodelled). -/

/-- A parsed `Range` header: unit (capture group 1), start and end
(inclusive), both `u64`. -/
structure Range where
  typ : String
  start : Nat
  end_ : Nat
deriving DecidableEq, Repr

/-- Range length `self.end - self.start + 1` in wrapping `u64`
arithmetic (release-mode semantics: subtraction and increment wrap
modulo `2^64`). -/
def Range.len (r : Range) : Nat :=
  ((r.end_ + 2 ^ 64 - r.start) % 2 ^ 64 + 1) % 2 ^ 64

/-- Attempt of the tail pattern of the Range regex right after a `=`:
a maximal nonempty ASCII digit run, a literal `-`, then a nonempty
digit run (trailing characters are allowed, the pattern is
unanchored). -/
def matchAfterEq (cs : List Char) : Option (List Char × List Char) :=
  let d1 := cs.takeWhile Char.isDigit
  if d1 = [] then none
  else
    match cs.drop d1.length with
    | '-' :: rest =>
      let d2 := rest.takeWhile Char.isDigit
      if d2 = [] then none else some (d1, d2)
    | _ => none

/-- Scan for the leftmost `=` whose tail matches `(\d+)-(\d+)`; the
characters scanned past (including rejected `=`s) form capture
group 1, matching the lazy `(.*?)`. -/
def scanEq (acc : List Char) : List Char → Option (List Char × List Char × List Char)
  | [] => none
  | c :: rest =>
    if c = '=' then
      match matchAfterEq rest with
      | some (d1, d2) => some (acc.reverse, d1, d2)
      | none => scanEq (c :: acc) rest
    else
      scanEq (c :: acc) rest

/-- Decimal value of a digit run. -/
def digitsToNat (ds : List Char) : Nat :=
  ds.foldl (fun a c => a * 10 + (c.toNat - 48)) 0

/-- The Range `FromStr` implementation: regex capture, then
`parse::<u64>` of both captures (`none` models both a failed regex
match and a `u64` overflow in `parse`, each of which makes `from_str`
return `Err`). -/
def Range.from_str (s : String) : Option Range :=
  match scanEq [] s.toList with
  | none => none
  | some (typ, d1, d2) =>
    let start := digitsToNat d1
    let stop := digitsToNat d2
    if start < 2 ^ 64 ∧ stop < 2 ^ 64 then
      some ⟨String.mk typ, start, stop⟩
    else
      none

/-! ## Path model (`std::path` boundary)

Rust `Path` operations used by the sources, on forward-slash paths.
`Path::components` style splitting drops empty components and `.`;
`PathBuf::join` appends for a relative argument and replaces for an
absolute one; `Path::starts_with` is a component-wise prefix test with
no filesystem access; the operating system resolves `..` components
only when a real filesystem call (`is_file`, `metadata`, `File::open`)
is made, which `canonicalize` models. -/

/-- Split a character list at every `/`. -/
def splitSlash (acc : List Char) : List Char → List (List Char)
  | [] => [acc.reverse]
  | c :: rest =>
    if c = '/' then acc.reverse :: splitSlash [] rest
    else splitSlash (c :: acc) rest

/-- String prefix test on characters (`str::starts_with`). -/
def strStartsWith (s p : String) : Bool :=
  p.toList.isPrefixOf s.toList

/-- Drop the first `n` characters of a string. -/
def strDrop (s : String) (n : Nat) : String :=
  String.mk (s.toList.drop n)

/-- Components of a forward-slash path string: empty components and `.`
are dropped, `..` is kept (as `Path::components` does). -/
def pathComponents (s : String) : List String :=
  ((splitSlash [] s.toList).map String.mk).filter (fun c => c ≠ "" ∧ c ≠ ".")

/-- Whether the path string is absolute (starts with `/`). -/
def isAbsolute (s : String) : Bool :=
  strStartsWith s "/"

/-- `PathBuf::join`: an absolute argument replaces the base path, a
relative one is appended component-wise. -/
def joinPath (base : List String) (s : String) : List String :=
  if isAbsolute s then pathComponents s else base ++ pathComponents s

/-- Filesystem-level resolution of `..` components, as the operating
system performs it when a joined path is actually accessed (`..` at the
root stays at the root). -/
def canonicalize (comps : List String) : List String :=
  comps.foldl (fun acc c => if c = ".." then acc.dropLast else acc ++ [c]) []

/-- Last path component, `Path::file_name` (on the paths exercised
here: `none` for an empty path or one ending in `..`). -/
def fileName (s : String) : Option String :=
  match (pathComponents s).getLast? with
  | none => none
  | some c => if c = ".." then none else some c

/-- `Path::extension` of a file name: the part after the last `.`,
provided that dot is not the first character; `none` when there is no
such dot. -/
def rustExtension (name : String) : Option String :=
  let cs := name.toList
  let afterRev := cs.reverse.takeWhile (fun c => c ≠ '.')
  if afterRev.length + 1 ≤ cs.length ∧ afterRev.length + 1 ≠ cs.length then
    some (String.mk afterRev.reverse)
  else
    none

/-- Extension of the full request path: `Path::new(p).extension()` is
the extension of the last component. -/
def pathExtension (p : String) : Option String :=
  match fileName p with
  | none => none
  | some name => rustExtension name

/-- UTF-8 bytes of one character. -/
def charUTF8 (c : Char) : List Nat :=
  let n := c.toNat
  if n < 128 then [n]
  else if n < 2048 then [192 + n / 64, 128 + n % 64]
  else if n < 65536 then [224 + n / 4096, 128 + n / 64 % 64, 128 + n % 64]
  else [240 + n / 262144, 128 + n / 4096 % 64, 128 + n / 64 % 64, 128 + n % 64]

/-- UTF-8 bytes of a string — the bridge between the pipeline's string
paths and the package index's byte-list keys. -/
def strToBytes (s : String) : List Nat :=
  (s.toList.map charUTF8).flatten

/-! ## FileSystem trait and its two implementations (`src/fs/mod.rs`,
`src/fs/embedded/mod.rs`) -/

/-- The `FileSystem` trait: existence, metadata (modification time as
epoch seconds plus nanoseconds, matching `SystemTime` resolution),
size, open-at-offset, and the traversal check.  `open_` returns the
byte stream the returned reader would deliver; `none` models `Err`. -/
structure FileSystem where
  is_file : String → Bool
  last_modified : String → Option (Int × Nat)
  size : String → Option Nat
  open_ : String → Nat → Option (List Nat)
  path_valid : String → Bool

/-- One file on the local disk, as the OS metadata and content reads
see it. -/
structure DiskFile where
  mtime : Int × Nat
  content : List Nat

/-- The directory-backed `LocalFileSystem` over a model of the real
filesystem: `disk` maps fully resolved (canonical) paths to files, so
every actual filesystem access resolves `..` components, while
`path_valid` — exactly as in the source — joins the request path onto
the root and applies the purely syntactic `Path::starts_with`, with no
canonicalization. -/
def LocalFileSystem.fs (root : List String)
    (disk : List String → Option DiskFile) : FileSystem where
  is_file p := (disk (canonicalize (joinPath root p))).isSome
  last_modified p := (disk (canonicalize (joinPath root p))).map (fun f => f.mtime)
  size p := (disk (canonicalize (joinPath root p))).map (fun f => f.content.length)
  open_ p start :=
    (disk (canonicalize (joinPath root p))).map (fun f => f.content.drop start)
  path_valid p := root.isPrefixOf (joinPath root p)

/-- The claim's wording of the directory-backed traversal check
(modelled from the spec, for comparison with `path_valid` above): the
canonicalized result of joining the request path onto the root must
have the canonicalized root as a prefix. -/
def path_valid_spec (root : List String) (p : String) : Bool :=
  (canonicalize root).isPrefixOf (canonicalize (joinPath root p))

/-- The archive-backed `EmbeddedFileSystem`: every operation is an index
lookup on the UTF-8 bytes of the path string; `open` delegates to
`Package::open` and then seeks forward by `start` inside the returned
cursor; `path_valid` is the same `contains_key` test as `is_file`. -/
def EmbeddedFileSystem.fs (pkg : Package) : FileSystem where
  is_file p := (pkg.files.lookup (strToBytes p)).isSome
  last_modified p :=
    (pkg.files.lookup (strToBytes p)).map (fun f => (f.last_modified, 0))
  size p := (pkg.files.lookup (strToBytes p)).map (fun f => f.len)
  open_ p start := (pkg.open_ (strToBytes p)).map (fun bs => bs.drop start)
  path_valid p := (pkg.files.lookup (strToBytes p)).isSome

/-! ## Serving pipeline (`src/lib.rs`, `StaticFileServer::on_response`) -/

/-- Response status codes reachable by the pipeline (plus the incoming
status, which must be `NotFound` for the fairing to act at all). -/
inductive Status where
  | NotFound
  | Forbidden
  | NotModified
  | Ok
  | PartialContent
deriving DecidableEq, Repr

/-- A response body: whatever the host put there before the fairing ran
(`host`), a plain byte stream, or a gzip-encoded stream (the gzip codec
is external; `gzipped s` records that the body is the compressed form
of the stream `s`). -/
inductive Body where
  | host
  | plain (bytes : List Nat)
  | gzipped (bytes : List Nat)
deriving DecidableEq, Repr

/-- Request method (only GET and HEAD pass the gate; other methods are
covered by `other`). -/
inductive Method where
  | GET
  | HEAD
  | other
deriving DecidableEq, Repr

/-- The inbound request fields the pipeline reads.  The
`If-Modified-Since` header is modelled at the chrono boundary by its
parse outcome: `none` when the header is absent, `some none` when
present but not parseable with the fixed timestamp format, and
`some (some t)` when it parses to epoch second `t` (the format has
one-second resolution, so a parsed value is a whole second). -/
structure Request where
  method : Method
  uri : String
  ifModifiedSince : Option (Option Int)
  acceptEncoding : Option String
  rangeHeader : Option String

/-- The outbound response: status, headers (later `set_header`
and `set_raw_header` calls replace earlier values of the same name)
and body. -/
structure Response where
  status : Status
  headers : List (String × String)
  body : Body
deriving DecidableEq, Repr

/-- Rocket's `set_header`/`set_raw_header`: replace any existing header
of the same name. -/
def setHeader (hs : List (String × String)) (n v : String) :
    List (String × String) :=
  (n, v) :: hs.filter (fun h => h.1 ≠ n)

/-- Header lookup in a response (most recent value). -/
def getHeader (hs : List (String × String)) (n : String) : Option String :=
  hs.lookup n

/-- Whole seconds of a signed nanosecond duration, truncated toward
zero — chrono's `Duration::num_seconds`. -/
def numSecondsOfNanos (nanos : Int) : Int :=
  nanos.sign * ((nanos.natAbs / 1000000000 : Nat) : Int)

/-- Stand-in for the external chrono formatter with the fixed pattern
`"%a, %d %b %Y %H:%M:%S GMT"`: an injective rendering of the epoch
second (the pattern prints whole seconds, discarding nanoseconds). -/
def formatHttpDate (secs : Int) : String :=
  "GMT:" ++ toString secs

/-- Contiguous sublist test on character lists. -/
def containsSub (pat : List Char) : List Char → Bool
  | [] => pat.isEmpty
  | c :: rest => if pat.isPrefixOf (c :: rest) then true else containsSub pat rest

/-- Bool substring test, `str::contains` on a literal pattern. -/
def strContains (hay pat : String) : Bool :=
  containsSub pat.toList hay.toList

/-- The fairing body `StaticFileServer::on_response`, transcribed stage
by stage.  `fs` is the backend, `pfx` the (already normalized) serving
prefix, `mime` the external `mime_guess::get_mime_type` table.  The
result is `none` exactly when the Rust code panics: at the
`extension().unwrap()` for a path with no extension, or at the
`last_modified(..).expect(..)` when the metadata call fails. -/
def on_response (fs : FileSystem) (pfx : String) (mime : String → String)
    (req : Request) (resp : Response) : Option Response :=
  -- Only handle requests which aren't otherwise handled.
  if resp.status ≠ Status.NotFound then some resp
  -- Only handle GET/HEAD requests which include our prefix.
  else if ¬((req.method = Method.GET ∨ req.method = Method.HEAD) ∧
      strStartsWith req.uri pfx) then some resp
  else
    -- Strip out the prefix (its first occurrence is at the start).
    let req_path := strDrop req.uri pfx.length
    -- Fail on paths outside of the given path.
    if ¬ fs.path_valid req_path then
      some { resp with status := Status.Forbidden }
    -- Fail if it is no file.
    else if ¬ fs.is_file req_path then
      some { resp with status := Status.NotFound }
    else
      -- Mime type from the extension; `unwrap` panics without one.
      match pathExtension req_path with
      | none => none
      | some ext =>
        let resp := { resp with
          headers := setHeader resp.headers "Content-Type" (mime ext) }
        -- File modification date; `expect` panics on failure.
        match fs.last_modified req_path with
        | none => none
        | some (msecs, mnanos) =>
          -- GET only: 304 when If-Modified-Since matches to the second.
          let imsMatch : Bool :=
            match req.ifModifiedSince with
            | some (some t) =>
              numSecondsOfNanos
                (t * 1000000000 - (msecs * 1000000000 + mnanos)) = 0
            | _ => false
          if req.method = Method.GET ∧ imsMatch then
            some { resp with status := Status.NotModified }
          else
            match fs.size req_path with
            | none => some { resp with status := Status.Forbidden }
            | some size =>
              -- HEAD: content length and range support, no body.
              if req.method = Method.HEAD then
                some { resp with
                  status := Status.Ok,
                  headers := setHeader
                    (setHeader resp.headers "Accept-Ranges" "bytes")
                    "Content-Length" (toString size) }
              else
                -- Range header; a comma means multipart, treated as Err.
                let range_header := req.rangeHeader.getD ""
                let range : Option Range :=
                  if strContains range_header "," then none
                  else Range.from_str range_header
                let start := match range with
                  | some r => r.start
                  | none => 0
                match fs.open_ req_path start with
                | some f =>
                  let resp := { resp with
                    status := Status.Ok,
                    headers := setHeader
                      (setHeader resp.headers "Accept-Ranges" "bytes")
                      "Last-Modified" (formatHttpDate msecs) }
                  let streamAndResp :=
                    match range with
                    | some r =>
                      (f.take r.len,
                       { resp with
                         status := Status.PartialContent,
                         headers := setHeader
                           (setHeader resp.headers "Content-Length"
                             (toString r.len))
                           "Content-Range"
                           (r.typ ++ "=" ++ toString r.start ++ "-" ++
                             toString r.end_ ++ "/" ++ toString size) })
                    | none => (f, resp)
                  let stream := streamAndResp.1
                  let resp := streamAndResp.2
                  -- Accept-Encoding: substring test for "gzip".
                  match req.acceptEncoding with
                  | some encodings =>
                    if strContains encodings "gzip" then
                      some { resp with
                        headers := setHeader resp.headers
                          "Content-Encoding" "gzip",
                        body := Body.gzipped stream }
                    else
                      some { resp with body := Body.plain stream }
                  | none => some { resp with body := Body.plain stream }
                | none => some { resp with status := Status.Forbidden }

/-! ## Shared lemmas about the byte-level codec -/

theorem beVal_u64be (n : Nat) : beVal (u64be n) = n % 2 ^ 64 := by
  simp only [u64be, beVal, List.foldl]
  omega

theorem u64be_length (n : Nat) : (u64be n).length = 8 := rfl

theorem i64be_length (z : Int) : (i64be z).length = 8 := rfl

theorem metaRecord_length (f : SrcFile) (off : Nat) :
    (metaRecord f off).length = 32 + f.path.length := by
  simp [metaRecord, u64be_length, i64be_length]
  omega

theorem metaBytes_length (L : List SrcFile) (off : Nat) :
    (metaBytes L off).length = metaLenOf L := by
  induction L generalizing off with
  | nil => simp [metaBytes, metaLenOf]
  | cons f fs ih =>
    simp only [metaBytes, List.length_append, metaRecord_length, ih,
      metaLenOf, List.map_cons, List.sum_cons]

theorem dataBytes_length (L : List SrcFile) :
    (dataBytes L).length = dataLenOf L := by
  induction L with
  | nil => simp [dataBytes, dataLenOf]
  | cons f fs ih =>
    simp [dataBytes, dataLenOf] at ih ⊢
    omega

/-- Reading a `u64` whose eight bytes sit at position `pos`. -/
theorem readU64_of_drop {bytes rest : List Nat} {pos n : Nat}
    (h : bytes.drop pos = u64be n ++ rest) (hle : pos + 8 ≤ bytes.length) :
    readU64 bytes pos = some (n % 2 ^ 64) := by
  simp only [readU64]
  rw [if_pos hle, h, show (8 : Nat) = (u64be n).length from rfl,
    List.take_left, beVal_u64be]

/-- Reading an `i64` whose eight bytes sit at position `pos`. -/
theorem readI64_of_drop {bytes rest : List Nat} {pos : Nat} {z : Int}
    (h : bytes.drop pos = i64be z ++ rest) (hle : pos + 8 ≤ bytes.length)
    (hlo : -2 ^ 63 ≤ z) (hhi : z < 2 ^ 63) :
    readI64 bytes pos = some z := by
  have : readU64 bytes pos = some ((z % 2 ^ 64).toNat % 2 ^ 64) :=
    readU64_of_drop h hle
  have h2 : readI64 bytes pos =
      some (i64ofU64 ((z % 2 ^ 64).toNat % 2 ^ 64)) := by
    simp [readI64, this]
  rw [h2]
  congr 1
  have h0 : (0 : Int) ≤ z % 2 ^ 64 := Int.emod_nonneg z (by norm_num)
  have h1 : z % 2 ^ 64 < 2 ^ 64 := Int.emod_lt_of_pos z (by norm_num)
  unfold i64ofU64
  split <;> omega

/-- Shifting the drop position past an already-identified chunk. -/
theorem drop_shift {bytes chunk rest : List Nat} {pos : Nat}
    (h : bytes.drop pos = chunk ++ rest) :
    bytes.drop (pos + chunk.length) = rest := by
  rw [← List.drop_drop, h, List.drop_left]

/-- Length accounting for a drop that has been identified. -/
theorem length_of_drop {bytes tail : List Nat} {pos : Nat}
    (h : bytes.drop pos = tail) (hpos : pos ≤ bytes.length) :
    bytes.length = pos + tail.length := by
  have := List.length_drop pos bytes
  rw [h] at this
  omega

/-! ## The index the decode loop builds for an encoded file list -/

/-- Folding the decoder's inserts over a file list with running data
offsets — the index the record loop builds when fed the encoder's
metadata region. -/
def insertAll (acc : List (List Nat × InternalFile)) :
    List SrcFile → Nat → List (List Nat × InternalFile)
  | [], _ => acc
  | f :: fs, off =>
    insertAll (insertEntry acc f.path ⟨f.mtime, f.content.length, off⟩) fs
      (off + f.content.length)

/-- Each file paired with its data-region offset (the encoder's running
`data_offset`). -/
def offsetOf : List SrcFile → Nat → List (SrcFile × Nat)
  | [], _ => []
  | f :: fs, off => (f, off) :: offsetOf fs (off + f.content.length)

theorem lookup_filter_ne (m : List (List Nat × InternalFile))
    (q p : List Nat) (hpq : p ≠ q) :
    (m.filter (fun x => x.1 ≠ q)).lookup p = m.lookup p := by
  induction m with
  | nil => rfl
  | cons a m ih =>
    obtain ⟨a1, a2⟩ := a
    simp only [ne_eq, decide_not] at ih ⊢
    by_cases haq : a1 = q
    · subst haq
      have hpa : (p == a1) = false := by
        rw [beq_eq_false_iff_ne]
        exact hpq
      simp [List.filter_cons, List.lookup_cons, hpa, ih]
    · by_cases hpa : p = a1
      · subst hpa
        simp [List.filter_cons, List.lookup_cons, haq]
      · have hpa' : (p == a1) = false := by
          rw [beq_eq_false_iff_ne]
          exact hpa
        simp [List.filter_cons, List.lookup_cons, haq, hpa', ih]

theorem lookup_insertEntry (m : List (List Nat × InternalFile))
    (q : List Nat) (v : InternalFile) (p : List Nat) :
    (insertEntry m q v).lookup p = if p = q then some v else m.lookup p := by
  by_cases hpq : p = q
  · subst hpq
    simp [insertEntry, List.lookup_cons]
  · have hbq : (p == q) = false := by
      rw [beq_eq_false_iff_ne]
      exact hpq
    rw [if_neg hpq]
    simp only [insertEntry, List.lookup_cons, hbq]
    exact lookup_filter_ne m q p hpq

theorem lookup_insertAll_not_mem (L : List SrcFile)
    (acc : List (List Nat × InternalFile)) (off : Nat) (p : List Nat)
    (hp : p ∉ L.map (fun f => f.path)) :
    (insertAll acc L off).lookup p = acc.lookup p := by
  induction L generalizing acc off with
  | nil => simp [insertAll]
  | cons f fs ih =>
    simp only [List.map_cons, List.mem_cons, not_or] at hp
    simp only [insertAll]
    rw [ih _ _ hp.2, lookup_insertEntry, if_neg hp.1]

theorem lookup_insertAll_mem (L : List SrcFile)
    (acc : List (List Nat × InternalFile)) (off : Nat) (f : SrcFile) (o : Nat)
    (hnd : (L.map (fun f => f.path)).Nodup)
    (ho : (f, o) ∈ offsetOf L off) :
    (insertAll acc L off).lookup f.path =
      some ⟨f.mtime, f.content.length, o⟩ := by
  induction L generalizing acc off with
  | nil => simp [offsetOf] at ho
  | cons g gs ih =>
    simp only [offsetOf, List.mem_cons] at ho
    simp only [List.map_cons, List.nodup_cons] at hnd
    cases ho with
    | inl heq =>
      rw [Prod.mk.injEq] at heq
      obtain ⟨hf, hoff⟩ := heq
      subst hf
      subst hoff
      simp only [insertAll]
      rw [lookup_insertAll_not_mem _ _ _ _ hnd.1, lookup_insertEntry, if_pos rfl]
    | inr hmem =>
      simp only [insertAll]
      exact ih _ _ hnd.2 hmem

theorem mem_offsetOf_of_mem (L : List SrcFile) (f : SrcFile)
    (hf : f ∈ L) : ∀ off, ∃ o, (f, o) ∈ offsetOf L off := by
  induction L with
  | nil => simp at hf
  | cons g gs ih =>
    intro off
    cases List.mem_cons.mp hf with
    | inl heq =>
      subst heq
      exact ⟨off, List.mem_cons_self _ _⟩
    | inr hmem =>
      obtain ⟨o, ho⟩ := ih hmem (off + g.content.length)
      exact ⟨o, List.mem_cons_of_mem _ ho⟩

/-- The data-region slice at an entry's offset is exactly that file's
content. -/
theorem slice_offsetOf (L : List SrcFile) (off : Nat) (f : SrcFile) (o : Nat)
    (ho : (f, o) ∈ offsetOf L off) :
    off ≤ o ∧ o - off + f.content.length ≤ (dataBytes L).length ∧
      ((dataBytes L).drop (o - off)).take f.content.length = f.content := by
  induction L generalizing off with
  | nil => simp [offsetOf] at ho
  | cons g gs ih =>
    simp only [offsetOf, List.mem_cons] at ho
    cases ho with
    | inl heq =>
      rw [Prod.mk.injEq] at heq
      obtain ⟨hf, hoff⟩ := heq
      subst hf
      subst hoff
      refine ⟨le_refl _, ?_, ?_⟩
      · simp only [Nat.sub_self, Nat.zero_add, dataBytes, List.map_cons,
          List.flatten_cons, List.length_append]
        omega
      · simp only [Nat.sub_self, List.drop_zero, dataBytes, List.map_cons,
          List.flatten_cons]
        exact List.take_left _ _
    | inr hmem =>
      obtain ⟨h1, h2, h3⟩ := ih (off + g.content.length) hmem
      have hoo : off ≤ o := by omega
      refine ⟨hoo, ?_, ?_⟩
      · simp only [dataBytes, List.map_cons, List.flatten_cons,
          List.length_append]
        simp only [dataBytes] at h2
        omega
      · simp only [dataBytes, List.map_cons, List.flatten_cons]
        simp only [dataBytes] at h3
        have : o - off = g.content.length + (o - (off + g.content.length)) := by
          omega
        rw [this, List.drop_append]
        exact h3

theorem lookup_insertAll_isSome_general (L : List SrcFile)
    (acc : List (List Nat × InternalFile)) (off : Nat) (p : List Nat) :
    ((insertAll acc L off).lookup p).isSome = true ↔
      p ∈ L.map (fun f => f.path) ∨ (acc.lookup p).isSome = true := by
  induction L generalizing acc off with
  | nil => simp [insertAll]
  | cons g gs ih =>
    simp only [insertAll, List.map_cons, List.mem_cons]
    rw [ih]
    rw [lookup_insertEntry]
    by_cases hpg : p = g.path
    · simp [hpg]
    · simp only [if_neg hpg]
      tauto

/-- The built index holds exactly the listed paths. -/
theorem lookup_insertAll_isSome (L : List SrcFile) (off : Nat) (p : List Nat) :
    ((insertAll [] L off).lookup p).isSome = true ↔
      p ∈ L.map (fun f => f.path) := by
  rw [lookup_insertAll_isSome_general]
  simp

/-! ## Decoding an encoded metadata region -/

/-- Reading one complete metadata record at position `pos`. -/
theorem read_record (bytes : List Nat) (pos : Nat) (f : SrcFile) (off : Nat)
    (rest : List Nat)
    (hdrop : bytes.drop pos = metaRecord f off ++ rest)
    (hpos : pos ≤ bytes.length)
    (hp : f.path.length < 2 ^ 63)
    (hmlo : -2 ^ 63 ≤ f.mtime) (hmhi : f.mtime < 2 ^ 63)
    (hc : f.content.length < 2 ^ 64) (hoff : off < 2 ^ 64) :
    readU64 bytes pos = some f.path.length ∧
    (bytes.drop (pos + 8)).take f.path.length = f.path ∧
    readI64 bytes (pos + 8 + f.path.length) = some f.mtime ∧
    readU64 bytes (pos + 8 + f.path.length + 8) = some f.content.length ∧
    readU64 bytes (pos + 8 + f.path.length + 16) = some off ∧
    bytes.drop (pos + 8 + f.path.length + 24) = rest ∧
    pos + 8 + f.path.length + 24 ≤ bytes.length := by
  have h0 : bytes.drop pos =
      u64be f.path.length ++ (f.path ++ (i64be f.mtime ++
        (u64be f.content.length ++ (u64be off ++ rest)))) := by
    simpa [metaRecord, List.append_assoc] using hdrop
  have hlen : bytes.length =
      pos + (8 + (f.path.length + (8 + (8 + (8 + rest.length))))) := by
    have := length_of_drop h0 hpos
    simpa [u64be_length, i64be_length] using this
  have r1 : readU64 bytes pos = some f.path.length := by
    have := readU64_of_drop h0 (by omega)
    rwa [Nat.mod_eq_of_lt (by omega)] at this
  have h1 : bytes.drop (pos + 8) =
      f.path ++ (i64be f.mtime ++
        (u64be f.content.length ++ (u64be off ++ rest))) := by
    have := drop_shift h0
    rwa [u64be_length] at this
  have hpath : (bytes.drop (pos + 8)).take f.path.length = f.path := by
    rw [h1, List.take_left]
  have h2 : bytes.drop (pos + 8 + f.path.length) =
      i64be f.mtime ++ (u64be f.content.length ++ (u64be off ++ rest)) :=
    drop_shift h1
  have r2 : readI64 bytes (pos + 8 + f.path.length) = some f.mtime :=
    readI64_of_drop h2 (by omega) hmlo hmhi
  have h3 : bytes.drop (pos + 8 + f.path.length + 8) =
      u64be f.content.length ++ (u64be off ++ rest) := by
    have := drop_shift h2
    rwa [i64be_length] at this
  have r3 : readU64 bytes (pos + 8 + f.path.length + 8) =
      some f.content.length := by
    have := readU64_of_drop h3 (by omega)
    rwa [Nat.mod_eq_of_lt hc] at this
  have h4 : bytes.drop (pos + 8 + f.path.length + 16) =
      u64be off ++ rest := by
    have := drop_shift h3
    rw [u64be_length] at this
    have e : pos + 8 + f.path.length + 8 + 8 =
        pos + 8 + f.path.length + 16 := by omega
    rwa [e] at this
  have r4 : readU64 bytes (pos + 8 + f.path.length + 16) = some off := by
    have := readU64_of_drop h4 (by omega)
    rwa [Nat.mod_eq_of_lt hoff] at this
  have h5 : bytes.drop (pos + 8 + f.path.length + 24) = rest := by
    have := drop_shift h4
    rw [u64be_length] at this
    have e : pos + 8 + f.path.length + 16 + 8 =
        pos + 8 + f.path.length + 24 := by omega
    rwa [e] at this
  exact ⟨r1, hpath, r2, r3, r4, h5, by omega⟩

/-- Running the decode loop over the encoder's metadata region for the
file list `L` consumes exactly its records and builds the
corresponding index. -/
theorem readLoop_encoded (L : List SrcFile) :
    ∀ (bytes : List Nat) (fuel pos read meta_len off : Nat)
      (suffix : List Nat) (acc : List (List Nat × InternalFile)),
    fuel ≥ L.length + 1 →
    read + metaLenOf L = meta_len →
    meta_len < 2 ^ 63 →
    (∀ f ∈ L, -2 ^ 63 ≤ f.mtime ∧ f.mtime < 2 ^ 63 ∧
      f.content.length < 2 ^ 64) →
    off + dataLenOf L < 2 ^ 64 →
    pos ≤ bytes.length →
    bytes.drop pos = metaBytes L off ++ suffix →
    readLoop bytes meta_len fuel pos read acc = some (insertAll acc L off) := by
  induction L with
  | nil =>
    intro bytes fuel pos read meta_len off suffix acc hfuel hread hm hb hoff
      hpos hdrop
    simp only [metaLenOf, List.map_nil, List.sum_nil] at hread
    cases fuel with
    | zero => omega
    | succ fl =>
      simp only [readLoop, insertAll]
      rw [if_neg (by omega)]
  | cons f fs ih =>
    intro bytes fuel pos read meta_len off suffix acc hfuel hread hm hb hoff
      hpos hdrop
    have hml : metaLenOf (f :: fs) = 32 + f.path.length + metaLenOf fs := by
      simp only [metaLenOf, List.map_cons, List.sum_cons]
    have hdl : dataLenOf (f :: fs) = f.content.length + dataLenOf fs := by
      simp [dataLenOf]
    have hbf := hb f (List.mem_cons_self _ _)
    have hdrop' : bytes.drop pos =
        metaRecord f off ++ (metaBytes fs (off + f.content.length) ++ suffix) := by
      simpa [metaBytes, List.append_assoc] using hdrop
    obtain ⟨r1, hpath, r2, r3, r4, h5, hle⟩ :=
      read_record bytes pos f off _ hdrop' hpos (by omega) hbf.1 hbf.2.1
        hbf.2.2 (by omega)
    cases fuel with
    | zero => simp at hfuel
    | succ fl =>
      simp only [readLoop]
      rw [if_pos (by omega)]
      rw [r1]
      simp only [hpath, r2, r3, r4]
      have goal := ih bytes fl (pos + 8 + f.path.length + 24)
        (read + (32 + f.path.length)) meta_len (off + f.content.length)
        suffix (insertEntry acc f.path ⟨f.mtime, f.content.length, off⟩)
        (by simp at hfuel; omega)
        (by omega) hm (fun g hg => hb g (List.mem_cons_of_mem _ hg))
        (by omega) (by omega) h5
      rw [goal]
      simp [insertAll]

theorem length_le_metaLenOf (L : List SrcFile) : L.length ≤ metaLenOf L := by
  induction L with
  | nil => simp [metaLenOf]
  | cons f fs ih =>
    simp only [metaLenOf, List.map_cons, List.sum_cons, List.length_cons]
    simp only [metaLenOf] at ih
    omega

theorem content_le_dataLenOf (L : List SrcFile) (f : SrcFile) (hf : f ∈ L) :
    f.content.length ≤ dataLenOf L := by
  induction L with
  | nil => simp at hf
  | cons g gs ih =>
    simp only [dataLenOf, List.map_cons, List.sum_cons]
    cases List.mem_cons.mp hf with
    | inl h => subst h; omega
    | inr h =>
      have := ih h
      simp only [dataLenOf] at this
      omega

/-- Decoding an encoded package: the complete characterization of the
resulting `Package` in terms of the sorted input list. -/
theorem from_bytes_write_package (files : List SrcFile)
    (hmeta : metaLenOf files < 2 ^ 63)
    (hdata : dataLenOf files < 2 ^ 64)
    (hmt : ∀ f ∈ files, -2 ^ 63 ≤ f.mtime ∧ f.mtime < 2 ^ 63) :
    Package.from_bytes (write_package files) =
      some ⟨insertAll [] (files.mergeSort fileLe) 0,
        dataBytes (files.mergeSort fileLe)⟩ := by
  set L := files.mergeSort fileLe with hL
  have hperm : L.Perm files := List.mergeSort_perm files fileLe
  have hmetaL : metaLenOf L = metaLenOf files := by
    exact List.Perm.sum_eq (List.Perm.map _ hperm)
  have hdataL : dataLenOf L = dataLenOf files := by
    exact List.Perm.sum_eq (List.Perm.map _ hperm)
  have hmtL : ∀ f ∈ L, -2 ^ 63 ≤ f.mtime ∧ f.mtime < 2 ^ 63 ∧
      f.content.length < 2 ^ 64 := by
    intro f hf
    have hmem : f ∈ files := (List.Perm.mem_iff hperm).mp hf
    refine ⟨(hmt f hmem).1, (hmt f hmem).2, ?_⟩
    have := content_le_dataLenOf files f hmem
    omega
  set M := metaLenOf L with hM
  set bytes := write_package files with hbytes
  have hbytes' : bytes = u64be M ++ (metaBytes L 0 ++ dataBytes L) := by
    rw [hbytes, write_package]
    simp [List.append_assoc, hL, hM]
  have hdrop0 : bytes.drop 0 = u64be M ++ (metaBytes L 0 ++ dataBytes L) := by
    simpa using hbytes'
  have hlen : bytes.length = 8 + (M + dataLenOf L) := by
    rw [hbytes']
    simp [u64be_length, metaBytes_length, dataBytes_length]
  have hMlt : M < 2 ^ 63 := by omega
  have r0 : readU64 bytes 0 = some M := by
    have := readU64_of_drop hdrop0 (by omega)
    rwa [Nat.mod_eq_of_lt (by omega)] at this
  have hdrop8 : bytes.drop 8 = metaBytes L 0 ++ dataBytes L := by
    have := drop_shift hdrop0
    rwa [u64be_length] at this
  have hloop : readLoop bytes M (M + 1) 8 0 [] = some (insertAll [] L 0) := by
    apply readLoop_encoded L bytes (M + 1) 8 0 M 0 (dataBytes L) []
    · have := length_le_metaLenOf L
      omega
    · omega
    · exact hMlt
    · exact hmtL
    · omega
    · omega
    · exact hdrop8
  have hdropM : bytes.drop (M + 8) = dataBytes L := by
    have := drop_shift hdrop8
    rw [metaBytes_length] at this
    have e : 8 + metaLenOf L = M + 8 := by omega
    rwa [e] at this
  rw [Package.from_bytes, r0]
  simp only [hloop]
  rw [if_pos (by omega), hdropM]

/-! ## Claim theorems -/

/-- C3: encoding a set of files (distinct UTF-8 relative paths, sizes
within the u64 metadata bounds) with `write_package` and decoding the
buffer with `Package.from_bytes` yields an index holding exactly the
enrolled paths, each entry's length and epoch-second modification time
equal to the source file's, and `Package.open` for each path yields
exactly that file's bytes; the decoder's data region — the buffer from
offset `8 + meta_len` on — is exactly the file content the encoder
appended after the metadata records. -/
theorem c3_roundtrip (files : List SrcFile)
    (hnodup : (files.map (fun f => f.path)).Nodup)
    (hmeta : metaLenOf files < 2 ^ 63)
    (hdata : dataLenOf files < 2 ^ 64)
    (hmt : ∀ f ∈ files, -2 ^ 63 ≤ f.mtime ∧ f.mtime < 2 ^ 63) :
    ∃ pkg, Package.from_bytes (write_package files) = some pkg ∧
      (∀ p, ((pkg.files.lookup p).isSome = true) ↔
        p ∈ files.map (fun f => f.path)) ∧
      (∀ f ∈ files, ∃ e, pkg.files.lookup f.path = some e ∧
        e.last_modified = f.mtime ∧ e.len = f.content.length ∧
        pkg.open_ f.path = some f.content) ∧
      pkg.data = (write_package files).drop (8 + metaLenOf files) ∧
      pkg.data = dataBytes (files.mergeSort fileLe) := by
  set L := files.mergeSort fileLe with hL
  have hperm : L.Perm files := List.mergeSort_perm files fileLe
  have hpermMap : (L.map (fun f => f.path)).Perm
      (files.map (fun f => f.path)) := List.Perm.map _ hperm
  have hnodupL : (L.map (fun f => f.path)).Nodup :=
    (List.Perm.nodup_iff hpermMap).mpr hnodup
  have hmetaL : metaLenOf L = metaLenOf files :=
    List.Perm.sum_eq (List.Perm.map _ hperm)
  have hdataL : dataLenOf L = dataLenOf files :=
    List.Perm.sum_eq (List.Perm.map _ hperm)
  refine ⟨⟨insertAll [] L 0, dataBytes L⟩,
    from_bytes_write_package files hmeta hdata hmt, ?_, ?_, ?_, rfl⟩
  · intro p
    rw [lookup_insertAll_isSome]
    exact List.Perm.mem_iff hpermMap
  · intro f hf
    have hfL : f ∈ L := (List.Perm.mem_iff hperm).mpr hf
    obtain ⟨o, ho⟩ := mem_offsetOf_of_mem L f hfL 0
    have hlook := lookup_insertAll_mem L [] 0 f o hnodupL ho
    obtain ⟨_, hslice_le, hslice⟩ := slice_offsetOf L 0 f o ho
    rw [Nat.sub_zero] at hslice_le hslice
    have hsl : o + f.content.length ≤ dataLenOf L := by
      rwa [dataBytes_length] at hslice_le
    have hoc : o + f.content.length < 2 ^ 64 := by omega
    refine ⟨⟨f.mtime, f.content.length, o⟩, hlook, rfl, rfl, ?_⟩
    simp only [Package.open_, hlook]
    rw [Nat.mod_eq_of_lt hoc]
    rw [if_pos ⟨by omega, by rw [dataBytes_length]; omega⟩]
    simp only [Nat.add_sub_cancel_left]
    exact congrArg some hslice
  · have hbytes' : write_package files =
        u64be (metaLenOf L) ++ (metaBytes L 0 ++ dataBytes L) := by
      rw [write_package]
      simp [List.append_assoc, hL]
    have hdrop0 : (write_package files).drop 0 =
        u64be (metaLenOf L) ++ (metaBytes L 0 ++ dataBytes L) := by
      simpa using hbytes'
    have hdrop8 : (write_package files).drop 8 =
        metaBytes L 0 ++ dataBytes L := by
      have := drop_shift hdrop0
      rwa [u64be_length] at this
    have := drop_shift hdrop8
    rw [metaBytes_length, hmetaL] at this
    exact this.symm

/-- Two concrete files for exercising the codec round trip. -/
def c3files : List SrcFile :=
  [⟨strToBytes "b/c.txt", 2000, [4, 5]⟩, ⟨strToBytes "a.txt", 1000, [1, 2, 3]⟩]

/-- Witness for C3 at a concrete two-file set. -/
theorem c3_roundtrip_witness :
    ((c3files.map (fun f => f.path)).Nodup ∧
      metaLenOf c3files < 2 ^ 63 ∧ dataLenOf c3files < 2 ^ 64 ∧
      (∀ f ∈ c3files, -2 ^ 63 ≤ f.mtime ∧ f.mtime < 2 ^ 63)) ∧
    (∃ pkg, Package.from_bytes (write_package c3files) = some pkg ∧
      (∀ p, ((pkg.files.lookup p).isSome = true) ↔
        p ∈ c3files.map (fun f => f.path)) ∧
      (∀ f ∈ c3files, ∃ e, pkg.files.lookup f.path = some e ∧
        e.last_modified = f.mtime ∧ e.len = f.content.length ∧
        pkg.open_ f.path = some f.content) ∧
      pkg.data = (write_package c3files).drop (8 + metaLenOf c3files) ∧
      pkg.data = dataBytes (c3files.mergeSort fileLe)) :=
  ⟨⟨by decide, by decide, by decide, by decide⟩,
    c3_roundtrip c3files (by decide) (by decide) (by decide) (by decide)⟩

/-- When the buffer ends strictly inside the metadata region, the decode
loop hits an out-of-range fixed-size read and propagates the error. -/
theorem readLoop_truncated (L : List SrcFile) :
    ∀ (bytes : List Nat) (fuel pos read meta_len off : Nat)
      (acc : List (List Nat × InternalFile)),
    read + metaLenOf L = meta_len →
    meta_len < 2 ^ 63 →
    (∀ f ∈ L, -2 ^ 63 ≤ f.mtime ∧ f.mtime < 2 ^ 63 ∧
      f.content.length < 2 ^ 64) →
    off + dataLenOf L < 2 ^ 64 →
    pos ≤ bytes.length →
    bytes.drop pos = (metaBytes L off).take (bytes.length - pos) →
    bytes.length - pos < (metaBytes L off).length →
    readLoop bytes meta_len fuel pos read acc = none := by
  induction L with
  | nil =>
    intro bytes fuel pos read meta_len off acc hread hm hb hoff hpos hdrop hrem
    simp [metaBytes] at hrem
  | cons f fs ih =>
    intro bytes fuel pos read meta_len off acc hread hm hb hoff hpos hdrop hrem
    cases fuel with
    | zero => rfl
    | succ fl =>
      have hml : metaLenOf (f :: fs) = 32 + f.path.length + metaLenOf fs := by
        simp only [metaLenOf, List.map_cons, List.sum_cons]
      have hlt : read < meta_len := by omega
      have hbf := hb f (List.mem_cons_self _ _)
      have hlen : bytes.length = pos + (bytes.length - pos) := by omega
      set rem := bytes.length - pos with hremdef
      have hRlen : (metaRecord f off).length = 32 + f.path.length :=
        metaRecord_length f off
      have hMB : metaBytes (f :: fs) off =
          metaRecord f off ++ metaBytes fs (off + f.content.length) := rfl
      by_cases hcase : rem < 32 + f.path.length
      · -- the buffer ends inside this record's fields
        by_cases h8 : rem < 8
        · have r0 : readU64 bytes pos = none := by
            simp only [readU64]
            rw [if_neg (by omega)]
          simp only [readLoop]
          rw [if_pos hlt, r0]
        · -- the path length field is intact, a later fixed field is not
          have htake8 : (bytes.drop pos).take 8 = u64be f.path.length := by
            rw [hdrop, hMB, List.take_take]
            have : min 8 rem = 8 := by omega
            rw [this]
            have : metaRecord f off ++ metaBytes fs (off + f.content.length) =
                u64be f.path.length ++ (f.path ++ (i64be f.mtime ++
                  (u64be f.content.length ++ (u64be off ++
                    metaBytes fs (off + f.content.length))))) := by
              simp [metaRecord, List.append_assoc]
            rw [this, List.take_append_of_le_length (by rw [u64be_length]),
              List.take_of_length_le (by rw [u64be_length])]
          have r0 : readU64 bytes pos = some f.path.length := by
            simp only [readU64]
            rw [if_pos (by omega), htake8, beVal_u64be,
              Nat.mod_eq_of_lt (by omega)]
          have r3 : readU64 bytes (pos + 8 + f.path.length + 16) = none := by
            simp only [readU64]
            rw [if_neg (by omega)]
          simp only [readLoop]
          rw [if_pos hlt, r0]
          cases h1 : readI64 bytes (pos + 8 + f.path.length) with
          | none => simp [r3]
          | some lm =>
            cases h2 : readU64 bytes (pos + 8 + f.path.length + 8) with
            | none => simp [r3]
            | some ln => simp [r3]
      · -- this record is complete; recurse into the tail
        have hrem2 : rem - (32 + f.path.length) <
            (metaBytes fs (off + f.content.length)).length := by
          rw [hMB, List.length_append, hRlen] at hrem
          omega
        have hdrop2 : bytes.drop pos = metaRecord f off ++
            (metaBytes fs (off + f.content.length)).take
              (rem - (32 + f.path.length)) := by
          rw [hdrop, hMB, List.take_append_eq_append_take,
            List.take_of_length_le (by rw [hRlen]; omega), hRlen]
        have hoff' : off + f.content.length + dataLenOf fs < 2 ^ 64 := by
          simp only [dataLenOf, List.map_cons, List.sum_cons] at hoff ⊢
          omega
        obtain ⟨r1, hpath, r2, r3, r4, h5, hle⟩ :=
          read_record bytes pos f off _ hdrop2 hpos (by omega) hbf.1 hbf.2.1
            hbf.2.2 (by omega)
        have hdrop3 : bytes.drop (pos + 8 + f.path.length + 24) =
            (metaBytes fs (off + f.content.length)).take
              (bytes.length - (pos + 8 + f.path.length + 24)) := by
          rw [h5]
          congr 1
          omega
        have hrem3 : bytes.length - (pos + 8 + f.path.length + 24) <
            (metaBytes fs (off + f.content.length)).length := by omega
        simp only [readLoop]
        rw [if_pos hlt, r1]
        simp only [hpath, r2, r3, r4]
        exact ih bytes fl (pos + 8 + f.path.length + 24)
          (read + (32 + f.path.length)) meta_len (off + f.content.length)
          (insertEntry acc f.path ⟨f.mtime, f.content.length, off⟩)
          (by omega) hm (fun g hg => hb g (List.mem_cons_of_mem _ hg))
          (by omega) (by omega) hdrop3 hrem3

/-- A buffer whose single metadata record consumes 33 bytes while the
header announces `meta_len = 20`: record consumption strictly
overshoots `meta_len`. -/
def overshootBytes : List Nat :=
  u64be 20 ++ u64be 1 ++ [104] ++ i64be 0 ++ u64be 0 ++ u64be 0

/-- C7 counterexample: on a buffer where the cumulative record
consumption (33 bytes) strictly exceeds `meta_len` (20), the decoder
does not fail — the loop simply stops and `Package::from_bytes` returns
a package, contradicting the claim that both malformation cases yield
`MalformedPackage`. -/
theorem c7_counterexample :
    readU64 overshootBytes 0 = some 20 ∧
    Package.from_bytes overshootBytes =
      some ⟨[([104], ⟨0, 0, 0⟩)], [0, 0, 0, 0, 0, 0, 0, 0, 0, 0, 0, 0, 0]⟩ := by
  decide

/-- C7 (amended): when the buffer ends inside a metadata record — any
strict prefix of an encoded package cut inside the metadata region —
`Package::from_bytes` fails, returning no package; but when whole-record
consumption overshoots `meta_len` it does not fail: the loop exits and
the package is returned (the concrete overshooting buffer decodes to a
package). -/
theorem c7_partial_record :
    (∀ (files : List SrcFile) (k : Nat),
      metaLenOf files < 2 ^ 63 →
      dataLenOf files < 2 ^ 64 →
      (∀ f ∈ files, -2 ^ 63 ≤ f.mtime ∧ f.mtime < 2 ^ 63) →
      8 ≤ k → k < 8 + metaLenOf files →
      Package.from_bytes ((write_package files).take k) = none) ∧
    (Package.from_bytes overshootBytes).isSome = true := by
  constructor
  · intro files k hmeta hdata hmt h8 hk
    set L := files.mergeSort fileLe with hL
    have hperm : L.Perm files := List.mergeSort_perm files fileLe
    have hmetaL : metaLenOf L = metaLenOf files :=
      List.Perm.sum_eq (List.Perm.map _ hperm)
    have hdataL : dataLenOf L = dataLenOf files :=
      List.Perm.sum_eq (List.Perm.map _ hperm)
    have hmtL : ∀ f ∈ L, -2 ^ 63 ≤ f.mtime ∧ f.mtime < 2 ^ 63 ∧
        f.content.length < 2 ^ 64 := by
      intro f hf
      have hmem : f ∈ files := (List.Perm.mem_iff hperm).mp hf
      refine ⟨(hmt f hmem).1, (hmt f hmem).2, ?_⟩
      have := content_le_dataLenOf files f hmem
      omega
    set M := metaLenOf L with hM
    have hbytes' : write_package files =
        u64be M ++ (metaBytes L 0 ++ dataBytes L) := by
      rw [write_package]
      simp [List.append_assoc, hL, hM]
    have hfull : (write_package files).length = 8 + (M + dataLenOf L) := by
      rw [hbytes']
      simp [u64be_length, metaBytes_length, dataBytes_length]
    set bt := (write_package files).take k with hbt
    have hbtlen : bt.length = k := by
      rw [hbt, List.length_take]
      omega
    have hbteq : bt = u64be M ++ (metaBytes L 0).take (k - 8) := by
      rw [hbt, hbytes', List.take_append_eq_append_take,
        List.take_of_length_le (by rw [u64be_length]; omega), u64be_length,
        List.take_append_of_le_length (by rw [metaBytes_length]; omega)]
    have hdrop0 : bt.drop 0 = u64be M ++ (metaBytes L 0).take (k - 8) := by
      simpa using hbteq
    have r0 : readU64 bt 0 = some M := by
      have := readU64_of_drop hdrop0 (by omega)
      rwa [Nat.mod_eq_of_lt (by omega)] at this
    have hdrop8 : bt.drop 8 = (metaBytes L 0).take (bt.length - 8) := by
      have := drop_shift hdrop0
      rw [u64be_length] at this
      rw [this, hbtlen]
    have hloop : readLoop bt M (M + 1) 8 0 [] = none := by
      apply readLoop_truncated L bt (M + 1) 8 0 M 0 []
      · omega
      · omega
      · exact hmtL
      · omega
      · omega
      · exact hdrop8
      · rw [metaBytes_length]
        omega
    rw [Package.from_bytes, r0]
    simp only [hloop]
  · decide

/-- Witness for the general part of the amended C7, at a concrete file
set truncated to 20 bytes (inside the first metadata record). -/
theorem c7_partial_record_witness :
    (metaLenOf c3files < 2 ^ 63 ∧ dataLenOf c3files < 2 ^ 64 ∧
      (∀ f ∈ c3files, -2 ^ 63 ≤ f.mtime ∧ f.mtime < 2 ^ 63) ∧
      8 ≤ 20 ∧ 20 < 8 + metaLenOf c3files) ∧
    Package.from_bytes ((write_package c3files).take 20) = none :=
  ⟨⟨by decide, by decide, by decide, by decide, by decide⟩,
    c7_partial_record.1 c3files 20 (by decide) (by decide) (by decide)
      (by decide) (by decide)⟩

/-! ## Pipeline scenarios -/

/-- The response the host leaves when its routing found no match: the
fairing only acts on a `NotFound` status. -/
def resp404 : Response := ⟨Status.NotFound, [], Body.host⟩

/-- A stand-in for the external mime table. -/
def mimePlain : String → String := fun _ => "text/plain"

/-- Root directory of the directory-backed scenario. -/
def c1root : List String := ["srv", "static"]

/-- A disk holding one file outside the served root: the canonical path
`etc/secret.txt` is a sibling of `srv`, not under `srv/static`. -/
def c1disk : List String → Option DiskFile :=
  fun p => if p = ["etc", "secret.txt"] then some ⟨(1111, 0), [9, 9, 9]⟩ else none

/-- C1 evaluation: `LocalFileSystem::path_valid` joins without
canonicalizing and applies the purely syntactic `starts_with`, so the
traversal path `../../etc/secret.txt` — which canonicalizes outside the
root — passes the check (while the claim's canonicalization-based check
rejects it), and the pipeline serves the outside file with `200 OK`
instead of terminating with `Forbidden`. -/
theorem c1_traversal_serves_outside :
    (LocalFileSystem.fs c1root c1disk).path_valid "../../etc/secret.txt" = true ∧
    path_valid_spec c1root "../../etc/secret.txt" = false ∧
    canonicalize (joinPath c1root "../../etc/secret.txt") =
      ["etc", "secret.txt"] ∧
    on_response (LocalFileSystem.fs c1root c1disk) "/static/" mimePlain
      ⟨Method.GET, "/static/../../etc/secret.txt", none, none, none⟩ resp404 =
      some ⟨Status.Ok,
        [("Last-Modified", "GMT:1111"), ("Accept-Ranges", "bytes"),
         ("Content-Type", "text/plain")],
        Body.plain [9, 9, 9]⟩ := by
  decide

/-- A one-file archive package for the archive-backed scenarios. -/
def c2pkg : Package := ⟨[(strToBytes "a.txt", ⟨1000, 3, 0⟩)], [1, 2, 3]⟩

/-- C2 counterexample: for the archive backend, `path_valid` is the
index `contains_key` test, not constantly true — for a path absent from
the index it returns `false` and the pipeline terminates with
`Forbidden` at the path-validation stage, never reaching the
`NotFound` stage. -/
theorem c2_counterexample :
    (EmbeddedFileSystem.fs c2pkg).path_valid "nope.txt" = false ∧
    on_response (EmbeddedFileSystem.fs c2pkg) "/s/" mimePlain
      ⟨Method.GET, "/s/nope.txt", none, none, none⟩ resp404 =
      some ⟨Status.Forbidden, [], Body.host⟩ := by
  decide

/-- C2 (amended): for the archive backend, `path_is_within_root` returns
true exactly for the paths present in the archive index, and a GET or
HEAD request under the serving prefix for a path not present in the
index terminates with status `Forbidden` (the path-validation stage
fires before the existence stage), never `NotFound`. -/
theorem c2_absent_path_forbidden (pkg : Package) (pfx : String)
    (mime : String → String) (req : Request) (resp : Response) (rp : String)
    (hst : resp.status = Status.NotFound)
    (hm : req.method = Method.GET ∨ req.method = Method.HEAD)
    (hpre : strStartsWith req.uri pfx = true)
    (hrp : strDrop req.uri pfx.length = rp)
    (habs : pkg.files.lookup (strToBytes rp) = none) :
    (EmbeddedFileSystem.fs pkg).path_valid rp = false ∧
    on_response (EmbeddedFileSystem.fs pkg) pfx mime req resp =
      some { resp with status := Status.Forbidden } ∧
    (∀ p, ((pkg.files.lookup (strToBytes p)).isSome = true) →
      (EmbeddedFileSystem.fs pkg).path_valid p = true) := by
  refine ⟨?_, ?_, ?_⟩
  · simp [EmbeddedFileSystem.fs, habs]
  · rcases hm with hG | hH
    · simp [on_response, hst, hpre, hG, hrp, EmbeddedFileSystem.fs, habs]
    · simp [on_response, hst, hpre, hH, hrp, EmbeddedFileSystem.fs, habs]
  · intro p hp
    simpa [EmbeddedFileSystem.fs] using hp

/-- Witness for the amended C2 at a concrete archive and request. -/
theorem c2_absent_path_forbidden_witness :
    (resp404.status = Status.NotFound ∧
      (Method.GET = Method.GET ∨ Method.GET = Method.HEAD) ∧
      strStartsWith "/s/nope.txt" "/s/" = true ∧
      strDrop "/s/nope.txt" ("/s/".length) = "nope.txt" ∧
      c2pkg.files.lookup (strToBytes "nope.txt") = none) ∧
    ((EmbeddedFileSystem.fs c2pkg).path_valid "nope.txt" = false ∧
      on_response (EmbeddedFileSystem.fs c2pkg) "/s/" mimePlain
        ⟨Method.GET, "/s/nope.txt", none, none, none⟩ resp404 =
        some { resp404 with status := Status.Forbidden } ∧
      (∀ p, ((c2pkg.files.lookup (strToBytes p)).isSome = true) →
        (EmbeddedFileSystem.fs c2pkg).path_valid p = true)) :=
  ⟨⟨by decide, by decide, by decide, by decide, by decide⟩,
    c2_absent_path_forbidden c2pkg "/s/" mimePlain
      ⟨Method.GET, "/s/nope.txt", none, none, none⟩ resp404 "nope.txt"
      (by decide) (by decide) (by decide) (by decide) (by decide)⟩

/-- A disk with one 12-byte text file under the root `www`. -/
def demoDisk : List String → Option DiskFile :=
  fun p => if p = ["www", "a.txt"] then
    some ⟨(500, 0), [10, 11, 12, 13, 14, 15, 16, 17, 18, 19, 20, 21]⟩
  else none

/-- The directory backend over `demoDisk`. -/
def demoFs : FileSystem := LocalFileSystem.fs ["www"] demoDisk

/-- C4 evaluation: for a ranged GET with `Accept-Encoding: gzip`, the
pipeline sets the range-derived `Content-Length` before the compression
stage and never removes it — the response carries `Content-Length: 5`
alongside `Content-Encoding: gzip` and the gzip-wrapped stream,
contradicting the claim that no `Content-Length` accompanies the
compressed body.  (For a non-ranged GET no `Content-Length` is ever
set, which the second conjunct records.) -/
theorem c4_gzip_keeps_content_length :
    (on_response demoFs "/s/" mimePlain
      ⟨Method.GET, "/s/a.txt", none, some "gzip", some "bytes=0-4"⟩ resp404 =
      some ⟨Status.PartialContent,
        [("Content-Encoding", "gzip"), ("Content-Range", "bytes=0-4/12"),
         ("Content-Length", "5"), ("Last-Modified", "GMT:500"),
         ("Accept-Ranges", "bytes"), ("Content-Type", "text/plain")],
        Body.gzipped [10, 11, 12, 13, 14]⟩) ∧
    (on_response demoFs "/s/" mimePlain
      ⟨Method.GET, "/s/a.txt", none, some "gzip", none⟩ resp404 =
      some ⟨Status.Ok,
        [("Content-Encoding", "gzip"), ("Last-Modified", "GMT:500"),
         ("Accept-Ranges", "bytes"), ("Content-Type", "text/plain")],
        Body.gzipped [10, 11, 12, 13, 14, 15, 16, 17, 18, 19, 20, 21]⟩) := by
  decide

/-- C5 evaluation: a valid single-range GET gets status
`Partial Content` and `Content-Length` equal to the range length, but
the `Content-Range` value is formatted with the format string
`"{}={}-{}/{}"` — `bytes=5-10/12` — not the claimed
`"<unit> <start>-<end>/<size>"` with a space. -/
theorem c5_content_range_separator :
    (on_response demoFs "/s/" mimePlain
      ⟨Method.GET, "/s/a.txt", none, none, some "bytes=5-10"⟩ resp404 =
      some ⟨Status.PartialContent,
        [("Content-Range", "bytes=5-10/12"), ("Content-Length", "6"),
         ("Last-Modified", "GMT:500"), ("Accept-Ranges", "bytes"),
         ("Content-Type", "text/plain")],
        Body.plain [15, 16, 17, 18, 19, 20]⟩) ∧
    ("bytes=5-10/12" : String) ≠ "bytes 5-10/12" := by
  decide

/-- A disk with one extensionless file under the root `www`. -/
def c6disk : List String → Option DiskFile :=
  fun p => if p = ["www", "README"] then some ⟨(500, 0), [1, 2]⟩ else none

/-- C6 evaluation: for an existing, valid file path with no extension,
`Path::new(..).extension()` is `None` and the pipeline's `.unwrap()`
panics (result `none` in the model) instead of continuing without a
`Content-Type` header. -/
theorem c6_extensionless_panics :
    pathExtension "README" = none ∧
    on_response (LocalFileSystem.fs ["www"] c6disk) "/s/" mimePlain
      ⟨Method.GET, "/s/README", none, none, none⟩ resp404 = none := by
  decide

/-- C10: the Range parser accepts `bytes=10-5` (no `end >= start`
check), the `u64` length computation `end - start + 1` wraps modulo
`2^64` to `2^64 - 4`, and the pipeline passes that wrapped value as the
body-bounding limit (the emitted `Content-Length` header shows it); the
value is not the claimed-impossible intended length `6`. -/
theorem c10_range_underflow :
    Range.from_str "bytes=10-5" = some ⟨"bytes", 10, 5⟩ ∧
    Range.len ⟨"bytes", 10, 5⟩ = 2 ^ 64 - 4 ∧
    (2 ^ 64 - 4 : Nat) ≠ 6 ∧
    on_response demoFs "/s/" mimePlain
      ⟨Method.GET, "/s/a.txt", none, none, some "bytes=10-5"⟩ resp404 =
      some ⟨Status.PartialContent,
        [("Content-Range", "bytes=10-5/12"),
         ("Content-Length", "18446744073709551612"),
         ("Last-Modified", "GMT:500"), ("Accept-Ranges", "bytes"),
         ("Content-Type", "text/plain")],
        Body.plain [20, 21]⟩ := by
  decide

/-- C8: for a GET whose `If-Modified-Since` header parses with the fixed
timestamp format and equals the resource's modification time at
one-second resolution (the parsed header carries whole seconds; the
resource may carry nanoseconds below one second), the pipeline
terminates with `Not Modified`, leaving the body untouched and adding
no header beyond the already-set `Content-Type`; with a header value
one full second earlier it instead proceeds to a full `200 OK` response
with the complete content. -/
theorem c8_conditional_get (fs : FileSystem) (pfx : String)
    (mime : String → String) (uri rp ext : String) (msecs : Int)
    (mnanos sz : Nat) (content : List Nat) (resp : Response)
    (hst : resp.status = Status.NotFound)
    (hpre : strStartsWith uri pfx = true)
    (hrp : strDrop uri pfx.length = rp)
    (hval : fs.path_valid rp = true)
    (hfile : fs.is_file rp = true)
    (hext : pathExtension rp = some ext)
    (hmod : fs.last_modified rp = some (msecs, mnanos))
    (hn : mnanos < 1000000000)
    (hsz : fs.size rp = some sz)
    (hopen : fs.open_ rp 0 = some content) :
    (∀ enc rng,
      on_response fs pfx mime ⟨Method.GET, uri, some (some msecs), enc, rng⟩
          resp =
        some ⟨Status.NotModified,
          setHeader resp.headers "Content-Type" (mime ext), resp.body⟩) ∧
    on_response fs pfx mime
        ⟨Method.GET, uri, some (some (msecs - 1)), none, none⟩ resp =
      some ⟨Status.Ok,
        setHeader (setHeader (setHeader resp.headers "Content-Type" (mime ext))
          "Accept-Ranges" "bytes") "Last-Modified" (formatHttpDate msecs),
        Body.plain content⟩ := by
  have heq : numSecondsOfNanos (-(mnanos : Int)) = 0 := by
    unfold numSecondsOfNanos
    have h1 : ((-(mnanos : Int)).natAbs) = mnanos := by simp
    rw [h1, Nat.div_eq_of_lt hn]
    simp
  have hne : numSecondsOfNanos
      ((msecs - 1) * 1000000000 - (msecs * 1000000000 + (mnanos : Int))) =
      -1 := by
    have harg : (msecs - 1) * 1000000000 -
        (msecs * 1000000000 + (mnanos : Int)) =
        -(1000000000 + (mnanos : Int)) := by ring
    rw [harg]
    unfold numSecondsOfNanos
    have h1 : ((-(1000000000 + (mnanos : Int))).natAbs) =
        1000000000 + mnanos := by
      rw [Int.natAbs_neg]
      omega
    rw [h1]
    have h2 : (1000000000 + mnanos) / 1000000000 = 1 := by omega
    rw [h2]
    have h3 : (-(1000000000 + (mnanos : Int))).sign = -1 := by
      rw [Int.sign_eq_neg_one_iff_neg]
      omega
    rw [h3]
    ring
  constructor
  · intro enc rng
    simp [on_response, hst, hpre, hrp, hval, hfile, hext, hmod, heq]
  · have hcomma : strContains "" "," = false := by decide
    have hparse : Range.from_str "" = none := by decide
    simp [on_response, hst, hpre, hrp, hval, hfile, hext, hmod, hne, hsz,
      hcomma, hparse, hopen]

/-- Witness for C8 on the demo backend: If-Modified-Since equal to the
second gives `Not Modified`; one second earlier gives full `200 OK`. -/
theorem c8_conditional_get_witness :
    (resp404.status = Status.NotFound ∧
      strStartsWith "/s/a.txt" "/s/" = true ∧
      strDrop "/s/a.txt" ("/s/".length) = "a.txt" ∧
      demoFs.path_valid "a.txt" = true ∧
      demoFs.is_file "a.txt" = true ∧
      pathExtension "a.txt" = some "txt" ∧
      demoFs.last_modified "a.txt" = some (500, 0) ∧
      (0 : Nat) < 1000000000 ∧
      demoFs.size "a.txt" = some 12 ∧
      demoFs.open_ "a.txt" 0 =
        some [10, 11, 12, 13, 14, 15, 16, 17, 18, 19, 20, 21]) ∧
    ((∀ enc rng,
      on_response demoFs "/s/" mimePlain
          ⟨Method.GET, "/s/a.txt", some (some 500), enc, rng⟩ resp404 =
        some ⟨Status.NotModified,
          setHeader resp404.headers "Content-Type" (mimePlain "txt"),
          resp404.body⟩) ∧
    on_response demoFs "/s/" mimePlain
        ⟨Method.GET, "/s/a.txt", some (some (500 - 1)), none, none⟩ resp404 =
      some ⟨Status.Ok,
        setHeader (setHeader
          (setHeader resp404.headers "Content-Type" (mimePlain "txt"))
          "Accept-Ranges" "bytes") "Last-Modified" (formatHttpDate 500),
        Body.plain [10, 11, 12, 13, 14, 15, 16, 17, 18, 19, 20, 21]⟩) :=
  ⟨⟨by decide, by decide, by decide, by decide, by decide, by decide,
    by decide, by decide, by decide, by decide⟩,
    c8_conditional_get demoFs "/s/" mimePlain "/s/a.txt" "a.txt" "txt" 500 0 12
      [10, 11, 12, 13, 14, 15, 16, 17, 18, 19, 20, 21] resp404
      (by decide) (by decide) (by decide) (by decide) (by decide) (by decide)
      (by decide) (by decide) (by decide) (by decide)⟩

/-- C9: for a parsed Range with `start <= end` (and `end` within the
u64-sized resource), the derived length is `end - start + 1`; the body
of the ranged GET is exactly the resource's bytes at offsets
`start..end` inclusive and has exactly that length; and the bounding
`LimitReader` reports end-of-stream on every read once the limit is
reached, leaving the wrapped stream untouched, whatever it still
holds. -/
theorem c9_range_slice (fs : FileSystem) (pfx : String)
    (mime : String → String) (uri rp ext rh : String) (msecs : Int)
    (mnanos sz : Nat) (content : List Nat) (resp : Response) (r : Range)
    (hst : resp.status = Status.NotFound)
    (hpre : strStartsWith uri pfx = true)
    (hrp : strDrop uri pfx.length = rp)
    (hval : fs.path_valid rp = true)
    (hfile : fs.is_file rp = true)
    (hext : pathExtension rp = some ext)
    (hmod : fs.last_modified rp = some (msecs, mnanos))
    (hsz : fs.size rp = some sz)
    (hopen : fs.open_ rp r.start = some (content.drop r.start))
    (hcomma : strContains rh "," = false)
    (hparse : Range.from_str rh = some r)
    (hclen : content.length = sz)
    (hse : r.start ≤ r.end_)
    (hend : r.end_ < sz)
    (hsz64 : sz < 2 ^ 64) :
    r.len = r.end_ - r.start + 1 ∧
    Option.map Response.body
      (on_response fs pfx mime ⟨Method.GET, uri, none, none, some rh⟩ resp) =
      some (Body.plain ((content.drop r.start).take (r.end_ - r.start + 1))) ∧
    ((content.drop r.start).take (r.end_ - r.start + 1)).length =
      r.end_ - r.start + 1 ∧
    (∀ (lr : LimitReader) (n : Nat), lr.read = lr.limit →
      lr.readStep n = ([], lr)) := by
  have hlen : r.len = r.end_ - r.start + 1 := by
    unfold Range.len
    omega
  refine ⟨hlen, ?_, ?_, ?_⟩
  · simp [on_response, hst, hpre, hrp, hval, hfile, hext, hmod, hsz, hcomma,
      hparse, hopen, hlen]
  · simp only [List.length_take, List.length_drop]
    omega
  · intro lr n h
    unfold LimitReader.readStep
    rw [if_pos h.symm]

/-- Witness for C9 at the demo backend with `Range: bytes=5-10` on the
12-byte file: length 6, body bytes at offsets 5..10. -/
theorem c9_range_slice_witness :
    (resp404.status = Status.NotFound ∧
      strStartsWith "/s/a.txt" "/s/" = true ∧
      strDrop "/s/a.txt" ("/s/".length) = "a.txt" ∧
      demoFs.path_valid "a.txt" = true ∧
      demoFs.is_file "a.txt" = true ∧
      pathExtension "a.txt" = some "txt" ∧
      demoFs.last_modified "a.txt" = some (500, 0) ∧
      demoFs.size "a.txt" = some 12 ∧
      demoFs.open_ "a.txt" (Range.start ⟨"bytes", 5, 10⟩) =
        some (([10, 11, 12, 13, 14, 15, 16, 17, 18, 19, 20, 21] :
          List Nat).drop (Range.start ⟨"bytes", 5, 10⟩)) ∧
      strContains "bytes=5-10" "," = false ∧
      Range.from_str "bytes=5-10" = some ⟨"bytes", 5, 10⟩ ∧
      ([10, 11, 12, 13, 14, 15, 16, 17, 18, 19, 20, 21] :
        List Nat).length = 12 ∧
      Range.start ⟨"bytes", 5, 10⟩ ≤ Range.end_ ⟨"bytes", 5, 10⟩ ∧
      Range.end_ ⟨"bytes", 5, 10⟩ < 12 ∧ (12 : Nat) < 2 ^ 64) ∧
    (Range.len ⟨"bytes", 5, 10⟩ =
        Range.end_ ⟨"bytes", 5, 10⟩ - Range.start ⟨"bytes", 5, 10⟩ + 1 ∧
      Option.map Response.body
        (on_response demoFs "/s/" mimePlain
          ⟨Method.GET, "/s/a.txt", none, none, some "bytes=5-10"⟩ resp404) =
        some (Body.plain ((([10, 11, 12, 13, 14, 15, 16, 17, 18, 19, 20, 21] :
          List Nat).drop (Range.start ⟨"bytes", 5, 10⟩)).take
            (Range.end_ ⟨"bytes", 5, 10⟩ - Range.start ⟨"bytes", 5, 10⟩ + 1))) ∧
      ((([10, 11, 12, 13, 14, 15, 16, 17, 18, 19, 20, 21] :
          List Nat).drop (Range.start ⟨"bytes", 5, 10⟩)).take
            (Range.end_ ⟨"bytes", 5, 10⟩ - Range.start ⟨"bytes", 5, 10⟩ +
              1)).length =
        Range.end_ ⟨"bytes", 5, 10⟩ - Range.start ⟨"bytes", 5, 10⟩ + 1 ∧
      (∀ (lr : LimitReader) (n : Nat), lr.read = lr.limit →
        lr.readStep n = ([], lr))) :=
  ⟨⟨by decide, by decide, by decide, by decide, by decide, by decide,
    by decide, by decide, by decide, by decide, by decide, by decide,
    by decide, by decide, by decide⟩,
    c9_range_slice demoFs "/s/" mimePlain "/s/a.txt" "a.txt" "txt"
      "bytes=5-10" 500 0 12 [10, 11, 12, 13, 14, 15, 16, 17, 18, 19, 20, 21]
      resp404 ⟨"bytes", 5, 10⟩
      (by decide) (by decide) (by decide) (by decide) (by decide) (by decide)
      (by decide) (by decide) (by decide) (by decide) (by decide) (by decide)
      (by decide) (by decide) (by decide)⟩

end RocketStaticFs
